import Mathlib

/-!
Verification of the LSNMF optimization core (`methods/factorization/lsnmf.py`).

Matrices are shallowly embedded as row-major lists of rows over `ℚ`
(`Mat := List (List ℚ)`); compressed-sparse-row matrices get their own
structure `Csr` mirroring the `indptr`/`indices`/`data` triple the source
iterates over.  Fallible operations (`numpy.dot` dimension checking, Python
`NameError`/unpacking failures) live in `Except MErr`.  All definitions are
transcribed from the Python source; the few claim-side formulas needed for
refinement comparisons are stated inside the theorems themselves.
-/

/-- Errors the embedded Python code can raise. -/
inductive MErr where
  | dimMismatch
  | nameErr
  | unpackErr
  | attrErr
  deriving DecidableEq, Repr

deriving instance DecidableEq for Except

/-- Dense matrix: list of rows. -/
abbrev Mat : Type := List (List ℚ)

/-- Number of columns, read off the first row (numpy arrays are rectangular). -/
def mcols (A : Mat) : Nat := (A.headD []).length

/-- Entry lookup with the usual zero default. -/
def mentry (A : Mat) (i j : Nat) : ℚ := (A.getD i []).getD j 0

/-- Matrix product `numpy.dot`: checks the inner dimensions and raises
`dimMismatch` when they disagree, exactly like `numpy.dot`. -/
def mdot (A B : Mat) : Except MErr Mat :=
  if mcols A = B.length then
    .ok (A.map (fun row =>
      (List.range (mcols B)).map (fun k =>
        ((List.range B.length).map (fun j => row.getD j 0 * mentry B j k)).sum)))
  else .error .dimMismatch

/-- Matrix transpose. -/
def mtrans (A : Mat) : Mat :=
  (List.range (mcols A)).map (fun j => A.map (fun row => row.getD j 0))

/-- Elementwise subtraction (operands share a shape at every use site). -/
def msub (A B : Mat) : Mat :=
  (A.zip B).map (fun rp => (rp.1.zip rp.2).map (fun e => e.1 - e.2))

/-- Scalar multiple `alpha * grad`. -/
def smul (a : ℚ) (A : Mat) : Mat := A.map (fun row => row.map (fun x => a * x))

/-- Elementwise (Hadamard) product, `utils.linalg.multiply`. -/
def hadamard (A B : Mat) : Mat :=
  (A.zip B).map (fun rp => (rp.1.zip rp.2).map (fun e => e.1 * e.2))

/-- Sum of all entries, `.sum()`. -/
def msum (A : Mat) : ℚ := (A.map List.sum).sum

/-- Elementwise `max(., 0)`, the nonnegative projection `max(H - alpha*grad, 0)`. -/
def mmax0 (A : Mat) : Mat := A.map (fun row => row.map (fun x => max x 0))

/-- The projected step proposal `Hn = max(H - alpha * grad, 0)` (line 125). -/
def projStep (H : Mat) (alpha : ℚ) (grad : Mat) : Mat :=
  mmax0 (msub H (smul alpha grad))

/-- Squared Frobenius norm of a flat list of selected entries. -/
def normSqList (l : List ℚ) : ℚ := (l.map (fun x => x ^ 2)).sum

/-- Right-nested concatenation of a list of lists (row-major flattening). -/
def mflat {α : Type} (L : List (List α)) : List α := L.foldr (· ++ ·) []

/-- Dense branch of `Lsnmf.__extract` (line 182):
`X[np.logical_or(X < 0, Y > 0)]`, i.e. the row-major sequence of the entries
of `X` that are negative or sit at a positive entry of `Y`. -/
def extractDense (X Y : Mat) : List ℚ :=
  mflat ((X.zip Y).map (fun rp =>
    (rp.1.zip rp.2).filterMap (fun e =>
      if e.1 < 0 ∨ 0 < e.2 then some e.1 else none)))

/-- The scalar `gradd = multiply(grad, d).sum()` (line 127). -/
def graddOf (grad d : Mat) : ℚ := msum (hadamard grad d)

/-- The scalar `dQd = multiply(dot(WtW, d), d).sum()` (line 128). -/
def dQdOf (WtW d : Mat) : Except MErr ℚ :=
  (mdot WtW d).map (fun Wd => msum (hadamard Wd d))

/-- Line 129: `suff_decr = 0.99 * gradd + sop(0.5 * dQd, 0, ne)`.
`sop(x, 0, ne)` is the scalar test `x != 0`, a Python boolean, which the
addition coerces to `1` or `0`. -/
def suffDecrVal (gradd dQd : ℚ) : ℚ :=
  99 / 100 * gradd + (if ¬(1 / 2 * dQd = 0) then 1 else 0)

/-- Lines 131/134/140 test `suff_decr` for truthiness: a Python float is
truthy exactly when it is nonzero. -/
def suffAccept (gradd dQd : ℚ) : Bool := decide (suffDecrVal gradd dQd ≠ 0)

/-- Dense branch of `Lsnmf.__alleq` (line 166): `(X == Y).all()` for two
same-shaped dense operands. -/
def alleqD (A B : Mat) : Bool := decide (A = B)

/-- Squared-norm comparison `norm(e) < eps` for a nonnegative Frobenius norm:
`norm(e) < eps` holds exactly when `eps` is nonnegative and `normSq e < eps^2`. -/
def normLt (nsq eps : ℚ) : Bool := decide (0 ≤ eps ∧ nsq < eps ^ 2)

/-- The line-search loop of `Lsnmf._subproblem` (lines 124-145), one Python
loop iteration per `fuel` step.  `n` is `n_iter`; `decrA`/`Hp` model the local
variables `decr_alpha` and `Hp`, which are unbound (`none`) until the source
assigns them (it does so only when `n_iter == 1`); reading an unbound local
raises `nameErr`.  On `break` the loop returns the accepted `H` together with
the current `alpha`; exhausting the 20 trials returns the entry `H`. -/
def lsGo (WtW grad : Mat) :
    Nat → Nat → Mat → ℚ → Option Bool → Option Mat → Except MErr (Mat × ℚ)
  | 0, _, H, alpha, _, _ => .ok (H, alpha)
  | fuel + 1, n, H, alpha, decrA, Hp => do
    let Hn := projStep H alpha grad
    let d := msub Hn H
    let gradd := graddOf grad d
    let dQd ← dQdOf WtW d
    let suffB := suffAccept gradd dQd
    let decrA' := if n = 1 then some (!suffB) else decrA
    let Hp' := if n = 1 then some H else Hp
    match decrA' with
    | none => .error .nameErr
    | some da =>
      if da then
        if suffB then .ok (Hn, alpha)
        else lsGo WtW grad fuel (n + 1) H (alpha * (1 / 10)) decrA' Hp'
      else
        match Hp' with
        | none => .error .nameErr
        | some hp =>
          if !suffB || alleqD hp Hn then .ok (hp, alpha)
          else lsGo WtW grad fuel (n + 1) H (alpha / (1 / 10)) decrA' (some Hn)

/-- One call of the 20-trial line search `for n_iter in xrange(20)` with both
local variables unbound on entry, as in the source. -/
def lineSearch (WtW grad H : Mat) (alpha : ℚ) : Except MErr (Mat × ℚ) :=
  lsGo WtW grad 20 0 H alpha none none

/-- Outer loop of `Lsnmf._subproblem` (lines 118-146).  `last` carries the
values of the Python locals `grad` and `iter` left over from the previous
loop iteration (`none` before the first one: returning then would read
unbound locals, `nameErr`).  On `break` (projected-gradient norm below
`epsH`) or on exhausting `max_iter` iterations it returns `(H, grad, iter)`. -/
def subGo (WtW WtV : Mat) (epsH : ℚ) :
    Nat → Nat → Mat → ℚ → Option (Mat × Nat) → Except MErr (Mat × Mat × Nat)
  | 0, _, H, _, last =>
    match last with
    | some (grad, iter) => .ok (H, grad, iter)
    | none => .error .nameErr
  | fuel + 1, iter, H, alpha, _ => do
    let WtWH ← mdot WtW H
    let grad := msub WtWH WtV
    if normLt (normSqList (extractDense grad H)) epsH then .ok (H, grad, iter)
    else do
      let s ← lineSearch WtW grad H alpha
      subGo WtW WtV epsH fuel (iter + 1) s.1 s.2 (some (grad, iter))

/-- Line 111 of the source: `WtW = dot(W.T, W.T)` — the Gram-matrix
precomputation of `_subproblem` exactly as written, multiplying the transpose
of the basis by itself transposed. -/
def subWtW (W : Mat) : Except MErr Mat := mdot (mtrans W) (mtrans W)

/-- `Lsnmf._subproblem(V, W, Hinit, epsH, max_iter)` (lines 92-146):
precompute `WtV = dot(W.T, V)` and `WtW = dot(W.T, W.T)`, set `alpha = 1`,
then run the outer projected-gradient loop. -/
def subproblem (V W Hinit : Mat) (epsH : ℚ) (max_iter : Nat) :
    Except MErr (Mat × Mat × Nat) := do
  let WtV ← mdot (mtrans W) V
  let WtW ← subWtW W
  subGo WtW WtV epsH max_iter 0 Hinit 1 none

/-- `Lsnmf.update` (lines 83-90): solve the transposed subproblem for `W`,
transpose back, adapt `epsW`, then solve for `H` and adapt `epsH`.  Returns
`(W, gW, H, gH, epsW, epsH)`. -/
def update (V W H : Mat) (epsW epsH : ℚ) :
    Except MErr (Mat × Mat × Mat × Mat × ℚ × ℚ) := do
  let w ← subproblem (mtrans V) (mtrans H) (mtrans W) epsW 1000
  let W' := mtrans w.1
  let gW := mtrans w.2.1
  let epsW' := if w.2.2 = 1 then 1 / 10 * epsW else epsW
  let h ← subproblem V W' H epsH 1000
  let epsH' := if h.2.2 = 1 then 1 / 10 * epsH else epsH
  .ok (W', gW, h.1, h.2.1, epsW', epsH')

/-- The cap test `self.max_iter and self.max_iter < iter` of
`_is_satisfied` (line 73).  `max_iter` is `none` when unset; a set value of
`0` is falsy in Python, so the test fires only for a nonzero cap. -/
def capStop : Option Nat → Nat → Bool
  | none, _ => false
  | some k, iter => decide (k ≠ 0) && decide (k < iter)

/-- `Lsnmf._is_satisfied(cobj, iter)` (lines 71-77). -/
def is_satisfied (max_iter : Option Nat) (min_residuals init_grad cobj : ℚ)
    (iter : Nat) : Bool :=
  if capStop max_iter iter then false
  else if 0 < iter ∧ cobj < min_residuals * init_grad then false
  else true

/-- The outer `while self._is_satisfied(cobj, iter)` loop of `factorize`
(lines 54-58), counting executed update steps.  `obj iter` is the objective
value `cobj` read at the check with counter `iter` (the update itself is
abstracted into this oracle sequence); the returned value is the counter at
which the predicate first fails, i.e. the number of `update()` calls made. -/
def trialIters (obj : Nat → ℚ) (max_iter : Option Nat) (mr ig : ℚ) :
    Nat → Nat → Nat
  | 0, iter => iter
  | fuel + 1, iter =>
    if is_satisfied max_iter mr ig (obj iter) iter then
      trialIters obj max_iter mr ig fuel (iter + 1)
    else iter

/-- Number of update steps a trial with cap `max_iter = k` performs: the
fuel `k + 2` is enough because the cap test fails at the latest at
`iter = k + 1`. -/
def numItersCapped (k : Nat) (obj : Nat → ℚ) (mr ig : ℚ) : Nat :=
  trialIters obj (some k) mr ig (k + 2) 0

/-- Entrywise nonnegativity of a dense matrix. -/
def matNonneg (A : Mat) : Prop := ∀ row ∈ A, ∀ x ∈ row, 0 ≤ x

instance (A : Mat) : Decidable (matNonneg A) := by
  unfold matNonneg; infer_instance

/-- Compressed sparse row matrix, exactly the triple
(`indptr`, `indices`, `data`) that `Lsnmf.__extract` iterates over. -/
structure Csr where
  rows : Nat
  cols : Nat
  indptr : List Nat
  indices : List Nat
  data : List ℚ
  deriving DecidableEq, Repr

/-- `X.indptr[r]`, the position at which row `r` starts. -/
def rowStart (X : Csr) (r : Nat) : Nat := X.indptr.getD r 0

/-- Number of structural entries of row `r`. -/
def rowLen (X : Csr) (r : Nat) : Nat := rowStart X (r + 1) - rowStart X r

/-- The positions `indptr[r] <= p < indptr[r+1]` of row `r`. -/
def rowPos (X : Csr) (r : Nat) : List Nat := List.range' (rowStart X r) (rowLen X r)

/-- The column indices stored for row `r`. -/
def rowCols (X : Csr) (r : Nat) : List Nat :=
  (rowPos X r).map (fun p => X.indices.getD p 0)

/-- Sparse element lookup `X[r, c]`: the stored value at column `c` of row
`r` (zero when the position is structurally absent; duplicate stored indices
are summed, as scipy does — a well-formed matrix has none). -/
def Csr.entry (X : Csr) (r c : Nat) : ℚ :=
  ((rowPos X r).filterMap (fun p =>
    if X.indices.getD p 0 = c then some (X.data.getD p 0) else none)).sum

/-- The body of the sparse extraction loop at one position: lines 176-178 of
the source test `X[row, col] < 0 or Y[row, col] > 0` and on success store
`X[row, col]` at `(row, col)` of the result. -/
def rowFilterFun (X : Csr) (Y : Nat → Nat → ℚ) (r p : Nat) : Option (Nat × Nat × ℚ) :=
  let c := X.indices.getD p 0
  if X.entry r c < 0 ∨ 0 < Y r c then some (r, c, X.entry r c) else none

/-- The inner `while now < upto` loop of the sparse branch of `__extract`
(lines 175-179), fuelled by `upto` (ample, since `now` only increases).
`acc` is the written-entry list representing the `lil_matrix` `R`. -/
def csrRowPass (X : Csr) (Y : Nat → Nat → ℚ) (r upto : Nat) :
    Nat → Nat → List (Nat × Nat × ℚ) → Nat × List (Nat × Nat × ℚ)
  | 0, now, acc => (now, acc)
  | fuel + 1, now, acc =>
    if now < upto then
      csrRowPass X Y r upto fuel (now + 1)
        (acc ++ (rowFilterFun X Y r now).toList)
    else (now, acc)

/-- The outer `for row in range(X.shape[0])` loop of the sparse branch
(lines 173-179); the position counter `now` is threaded across rows and
never reset, exactly as in the source. -/
def csrForGo (X : Csr) (Y : Nat → Nat → ℚ) :
    List Nat → Nat → List (Nat × Nat × ℚ) → List (Nat × Nat × ℚ)
  | [], _, acc => acc
  | r :: rs, now, acc =>
    let s := csrRowPass X Y r (rowStart X (r + 1)) (rowStart X (r + 1)) now acc
    csrForGo X Y rs s.1 s.2

/-- Sparse branch of `Lsnmf.__extract` (lines 170-180): start with an empty
result matrix of `X`'s shape and `now = 0`, loop over all rows.  The result
is the list of written entries `(row, col, value)` of `R`. -/
def csrExtract (X : Csr) (Y : Nat → Nat → ℚ) : List (Nat × Nat × ℚ) :=
  csrForGo X Y (List.range X.rows) 0 []

/-- Declarative description of one row of the sparse extraction. -/
def rowFiltered (X : Csr) (Y : Nat → Nat → ℚ) (r : Nat) : List (Nat × Nat × ℚ) :=
  (rowPos X r).filterMap (rowFilterFun X Y r)

/-- Declarative description of the whole sparse extraction. -/
def csrFiltered (X : Csr) (Y : Nat → Nat → ℚ) : List (Nat × Nat × ℚ) :=
  mflat ((List.range X.rows).map (rowFiltered X Y))

/-- All structural entries of a sparse matrix as written-entry list. -/
def csrStructural (X : Csr) : List (Nat × Nat × ℚ) :=
  mflat ((List.range X.rows).map (fun r =>
    (rowPos X r).map (fun p =>
      (r, X.indices.getD p 0, X.entry r (X.indices.getD p 0)))))

/-- Squared Frobenius norm of a written-entry list (positions are distinct
for well-formed inputs, so this is the squared Frobenius norm of `R`). -/
def normSqE (l : List (Nat × Nat × ℚ)) : ℚ := (l.map (fun e => e.2.2 ^ 2)).sum

/-- Well-formedness of a CSR matrix: `indptr` starts at 0 and is monotone
over the rows, each row's stored column indices are distinct, and all column
indices are in range. -/
def Csr.wf (X : Csr) : Prop :=
  rowStart X 0 = 0 ∧
  (∀ r, r < X.rows → rowStart X r ≤ rowStart X (r + 1)) ∧
  (∀ r, r < X.rows → (rowCols X r).Nodup) ∧
  (∀ r, r < X.rows → ∀ c ∈ rowCols X r, c < X.cols)

instance (X : Csr) : Decidable (Csr.wf X) := by
  unfold Csr.wf; infer_instance

/-- Equal dense shapes: equally many rows, and rows of pairwise equal
length. -/
def sameShape (X Y : Mat) : Prop :=
  X.length = Y.length ∧ ∀ i, i < X.length → (X.getD i []).length = (Y.getD i []).length

instance (X Y : Mat) : Decidable (sameShape X Y) := by
  unfold sameShape; infer_instance

open Matrix in
/-- Line 48 of `factorize`: `gW = dot(W, dot(H, H.T)) - dot(V, H.T)`. -/
def gWinit {m r n : ℕ} (V : Matrix (Fin m) (Fin n) ℚ) (W : Matrix (Fin m) (Fin r) ℚ)
    (H : Matrix (Fin r) (Fin n) ℚ) : Matrix (Fin m) (Fin r) ℚ :=
  W * (H * Hᵀ) - V * Hᵀ

open Matrix in
/-- Line 49 of `factorize`: `gH = dot(dot(W.T, W), H) - dot(W.T, V)`. -/
def gHinit {m r n : ℕ} (V : Matrix (Fin m) (Fin n) ℚ) (W : Matrix (Fin m) (Fin r) ℚ)
    (H : Matrix (Fin r) (Fin n) ℚ) : Matrix (Fin r) (Fin n) ℚ :=
  (Wᵀ * W) * H - Wᵀ * V

/-- Vertical concatenation `vstack(A, B)` of two matrices with equally many
columns. -/
def mvstack {m n r : ℕ} (A : Matrix (Fin m) (Fin r) ℚ) (B : Matrix (Fin n) (Fin r) ℚ) :
    Matrix (Fin m ⊕ Fin n) (Fin r) ℚ :=
  Matrix.of (Sum.elim A B)

/-- Squared Frobenius norm of a matrix (the Frobenius norm is its square
root, and two nonnegative norms are equal iff their squares are). -/
def mnormSq {ι κ : Type} [Fintype ι] [Fintype κ] (M : Matrix ι κ ℚ) : ℚ :=
  ∑ i, ∑ j, (M i j) ^ 2

open Matrix in
/-- Line 50 of `factorize`: the squared Frobenius norm of
`vstack(gW, gH.T)`, i.e. `init_grad ^ 2`. -/
def initGradSq {m r n : ℕ} (V : Matrix (Fin m) (Fin n) ℚ) (W : Matrix (Fin m) (Fin r) ℚ)
    (H : Matrix (Fin r) (Fin n) ℚ) : ℚ :=
  mnormSq (mvstack (gWinit V W H) ((gHinit V W H)ᵀ))

/-- Line 51 of `factorize`: `epsW = max(0.001, min_residuals) * init_grad`,
taking the already computed scalar `init_grad` as input. -/
def epsWinit (min_residuals init_grad : ℚ) : ℚ :=
  max (1 / 1000) min_residuals * init_grad

/-- Line 52 of `factorize`: `epsH = epsW`. -/
def epsHinit (min_residuals init_grad : ℚ) : ℚ := epsWinit min_residuals init_grad

/-- Spec-side formula for the dense projected-gradient metric: the sum of
the squares of exactly the active entries (`G[i,j] < 0` or `X[i,j] > 0`),
all other entries contributing zero — the squared Frobenius norm the spec
describes. -/
def denseActiveSumSq (X Y : Mat) : ℚ :=
  ∑ i ∈ Finset.range X.length, ∑ j ∈ Finset.range ((X.getD i []).length),
    (if (X.getD i []).getD j 0 < 0 ∨ 0 < (Y.getD i []).getD j 0 then
      ((X.getD i []).getD j 0) ^ 2 else 0)

/-- Spec-side formula for the sparse projected-gradient metric: the same
active-entry square sum, over every position of the matrix. -/
def csrActiveSumSq (X : Csr) (Y : Nat → Nat → ℚ) : ℚ :=
  ∑ r ∈ Finset.range X.rows, ∑ c ∈ Finset.range X.cols,
    (if X.entry r c < 0 ∨ 0 < Y r c then (X.entry r c) ^ 2 else 0)

/-- A concrete 2×2 sparse matrix (`[[-1, 0], [0, 3]]`) used as evaluation
input. -/
def csrEx : Csr := ⟨2, 2, [0, 1, 2], [0, 1], [-1, 3]⟩

/-- The all-zero factor matrix used as evaluation input. -/
def zeroFac : Nat → Nat → ℚ := fun _ _ => 0

/-- The all-one factor matrix used as evaluation input. -/
def oneFac : Nat → Nat → ℚ := fun _ _ => 1

/-- A concrete 1×1 sparse matrix (`[[-1]]`), all entries nonpositive, used
as evaluation input. -/
def csrNeg : Csr := ⟨1, 1, [0, 1], [0], [-1]⟩

/-- A concrete 2×2 sparse matrix (`[[2, 0], [0, 5]]`) with nonnegative data,
used as evaluation input. -/
def csrPos : Csr := ⟨2, 2, [0, 1, 2], [0, 1], [2, 5]⟩

/-- A dense-or-sparse operand of `Lsnmf.__alleq`, tagged the way
`sp.isspmatrix` distinguishes them. -/
inductive TMat where
  | dense (m : Mat)
  | sparse (s : Csr)
  deriving DecidableEq

/-- `sp.isspmatrix`. -/
def TMat.isSp : TMat → Bool
  | .dense _ => false
  | .sparse _ => true

/-- Element lookup `A[r, c]` on either representation. -/
def TMat.entryAt : TMat → Nat → Nat → ℚ
  | .dense m, r, c => mentry m r c
  | .sparse s, r, c => s.entry r c

/-- The right-hand side of line 155,
`X, Y = Y, X if not sp.isspmatrix(X) and sp.isspmatrix(Y) else X, Y`:
because the conditional expression binds tighter than the tuple commas, this
is the three-element tuple `(Y, (X if cond else X), Y)`. -/
def alleqSwapTuple (X Y : TMat) : List TMat :=
  [Y, if !X.isSp && Y.isSp then X else X, Y]

/-- Python tuple unpacking `X, Y = rhs`: succeeds exactly for a two-element
right-hand side and raises an unpacking `ValueError` otherwise. -/
def unpack2 {α : Type} : List α → Except MErr (α × α)
  | [a, b] => .ok (a, b)
  | _ => .error .unpackErr

/-- The inner `while now < upto` comparison loop of `__alleq`
(lines 159-163): stop with `False` at the first structural position whose
values differ. -/
def csrCmpPass (s : Csr) (Y : TMat) (r upto : Nat) : Nat → Nat → Bool × Nat
  | 0, now => (true, now)
  | fuel + 1, now =>
    if now < upto then
      if s.entry r (s.indices.getD now 0) ≠ Y.entryAt r (s.indices.getD now 0) then
        (false, now)
      else csrCmpPass s Y r upto fuel (now + 1)
    else (true, now)

/-- The outer `for row in range(X.shape[0])` comparison loop of `__alleq`
(lines 157-164). -/
def csrCmpRows (s : Csr) (Y : TMat) : List Nat → Nat → Bool
  | [], _ => true
  | r :: rs, now =>
    let p := csrCmpPass s Y r (rowStart s (r + 1)) (rowStart s (r + 1)) now
    if p.1 then csrCmpRows s Y rs p.2 else false

/-- The whole structural comparison of `__alleq`'s sparse branch. -/
def csrAlleq (s : Csr) (Y : TMat) : Bool := csrCmpRows s Y (List.range s.rows) 0

/-- `Lsnmf.__alleq(X, Y)` (lines 152-166).  When either operand is sparse,
line 155 first evaluates `alleqSwapTuple` and unpacks it into the two
targets `X, Y`; only if that succeeded would the comparison loop run (and it
would need the first operand to expose `indptr`, an attribute error on a
dense matrix).  The dense-dense branch returns `(X == Y).all()`. -/
def alleq (X Y : TMat) : Except MErr Bool :=
  if X.isSp || Y.isSp then do
    let p ← unpack2 (alleqSwapTuple X Y)
    match p.1 with
    | .sparse s => .ok (csrAlleq s p.2)
    | .dense _ => .error .attrErr
  else
    match X, Y with
    | .dense a, .dense b => .ok (alleqD a b)
    | .sparse _, _ => .error .attrErr
    | _, .sparse _ => .error .attrErr

/-- Claim C1 (code_bug evidence): the optimization core raises errors on
valid nonnegative input.  With the non-square basis `W = [[1],[1]]` the
precomputation `WtW = dot(W.T, W.T)` (line 111) is a `1×2` times `1×2`
product, which `numpy.dot` rejects, so `_subproblem` raises instead of
returning a factor; consequently `update` on the nonnegative input
`V = [[1,2]], W = [[1]], H = [[1,1]]` raises as well (its `W`-subproblem is
seeded with the `2×1` basis `H.T`).  The claim that every subproblem solve
returns a valid factor on all termination paths is therefore false. -/
theorem lsnmf_core_raises :
    subproblem [[2], [3]] [[1], [1]] [[1]] (1 / 1000) 1000 =
      .error .dimMismatch ∧
    update [[1, 2]] [[1]] [[1, 1]] 1 1 = .error .dimMismatch := by
  constructor <;> with_unfolding_all rfl

/-- Claim C3 (code_bug evidence): `_subproblem` precomputes
`WtW = dot(W.T, W.T)` (line 111), i.e. `Basisᵗ·Basisᵗ`, not the
`Basisᵗ·Basis` the claim states.  At the basis `[[0,1],[0,0]]` the two
disagree: the code's value is the zero matrix while `Basisᵗ·Basis` is
`[[0,0],[0,1]]`, so the gradient `WtW·H − WtV` is not
`(Basisᵗ·Basis)·H − Basisᵗ·Const`. -/
theorem subWtW_not_BtB :
    subWtW [[0, 1], [0, 0]] = .ok [[0, 0], [0, 0]] ∧
    mdot (mtrans [[0, 1], [0, 0]]) [[0, 1], [0, 0]] = .ok [[0, 0], [0, 1]] ∧
    subWtW [[0, 1], [0, 0]] ≠ mdot (mtrans [[0, 1], [0, 0]]) [[0, 1], [0, 0]] := by
  refine ⟨?_, ?_, ?_⟩ <;> with_unfolding_all decide

/-- Claim C2 (code_bug evidence): line 129 computes
`suff_decr = 0.99*gradd + sop(0.5*dQd, 0, ne)` — it adds the boolean
`0.5*dQd != 0` (coerced to `1`) instead of the term `0.5*dQd`, and lines
131/134/140 test the resulting float for truthiness (nonzero), not for
negativity.  At `grad = [[-1]]`, `d = [[1]]`, `WtW = [[4]]` we get
`gradd = -1`, `dQd = 4`: the claim's quantity is `0.99*(-1) + 0.5*4 = 1.01`,
which is not negative, so the claim judges the step insufficient; the code
computes `0.01` and, it being nonzero, judges the step sufficient. -/
theorem suff_decr_mismatch :
    graddOf [[-1]] [[1]] = -1 ∧
    dQdOf [[4]] [[1]] = .ok 4 ∧
    suffDecrVal (-1) 4 = 1 / 100 ∧
    suffAccept (-1) 4 = true ∧
    suffDecrVal (-1) 4 ≠ 99 / 100 * (-1) + 1 / 2 * 4 ∧
    ¬(99 / 100 * (-1 : ℚ) + 1 / 2 * 4 < 0) := by
  refine ⟨?_, ?_, ?_, ?_, ?_, ?_⟩ <;> with_unfolding_all decide

/-- Claim C4 (code_bug evidence): the source sets `decr_alpha` and `Hp` only
when `n_iter == 1` (line 130) — the second probe — yet reads `decr_alpha`
on every probe (line 133).  On the first probe (`n_iter = 0`) the local is
unbound, so any subproblem call that enters the line search raises
`NameError` instead of deciding a search mode on the first probe.  Concretely,
`_subproblem(V=[[0]], W=[[1]], Hinit=[[1]], epsH=1/2, 1000)` survives the
Gram-matrix precomputation (the basis is square), fails the projected-gradient
stopping test, enters the line search and raises on its very first probe. -/
theorem line_search_first_probe_unbound :
    subproblem [[0]] [[1]] [[1]] (1 / 2) 1000 = .error .nameErr ∧
    lineSearch [[1]] [[1]] [[1]] 1 = .error .nameErr := by
  constructor <;> with_unfolding_all rfl

/-- Helper: once the counter would pass the cap, the trial loop stops by
`iter = k + 1`; the loop counter never exceeds `k + 1`. -/
theorem trialIters_le (obj : Nat → ℚ) (k : Nat) (mr ig : ℚ) (hk : 1 ≤ k) :
    ∀ fuel iter, iter ≤ k + 1 → trialIters obj (some k) mr ig fuel iter ≤ k + 1 := by
  intro fuel
  induction fuel with
  | zero => intro iter h; simpa [trialIters] using h
  | succ fuel ih =>
    intro iter h
    by_cases hs : is_satisfied (some k) mr ig (obj iter) iter = true
    · have hcap : capStop (some k) iter = false := by
        by_contra hc
        have hc' : capStop (some k) iter = true := by
          cases hcb : capStop (some k) iter
          · exact absurd hcb hc
          · rfl
        simp [is_satisfied, hc'] at hs
      have hle : iter ≤ k := by
        have := hcap
        simp only [capStop, Bool.and_eq_false_iff, decide_eq_false_iff_not] at this
        rcases this with h0 | hlt
        · omega
        · omega
      simp only [trialIters, hs, if_true]
      exact ih (iter + 1) (by omega)
    · have hs' : is_satisfied (some k) mr ig (obj iter) iter = false := by
        cases hsb : is_satisfied (some k) mr ig (obj iter) iter
        · rfl
        · exact absurd hsb hs
      simp only [trialIters, hs']
      simpa using h

/-- Claim C5, counterexample: with `max_iter = 1`, `min_residuals = 1`,
`init_grad = 1` and an objective that never drops below the threshold, the
loop runs the update at `iter = 0` and at `iter = 1` — two outer iterations,
exceeding the claimed bound of `k = 1` — because the predicate only fails
once `iter > max_iter` (line 73 tests `max_iter < iter`). -/
theorem max_iter_bound_cex :
    numItersCapped 1 (fun _ => 1) 1 1 = 2 ∧ ¬(numItersCapped 1 (fun _ => 1) 1 1 ≤ 1) := by
  constructor <;> with_unfolding_all decide

/-- Claim C5, amended: for every `k ≥ 1`, a trial with `max_iter = k`
performs at most `k + 1` outer iterations (not `k`); the stopping predicate
is false once `iter > max_iter`, and false once `iter > 0` and the objective
is below `min_residuals * init_grad`. -/
theorem trial_iteration_bound (k : Nat) (obj : Nat → ℚ) (mr ig : ℚ) (hk : 1 ≤ k) :
    numItersCapped k obj mr ig ≤ k + 1 ∧
    (∀ c iter, k < iter → is_satisfied (some k) mr ig c iter = false) ∧
    (∀ c iter, 0 < iter → c < mr * ig → is_satisfied (some k) mr ig c iter = false) := by
  refine ⟨trialIters_le obj k mr ig hk (k + 2) 0 (by omega), ?_, ?_⟩
  · intro c iter hlt
    have hcap : capStop (some k) iter = true := by
      simp only [capStop, Bool.and_eq_true, decide_eq_true_eq]
      omega
    simp [is_satisfied, hcap]
  · intro c iter hpos hobj
    by_cases hcap : capStop (some k) iter = true
    · simp [is_satisfied, hcap]
    · have hcap' : capStop (some k) iter = false := by
        cases h : capStop (some k) iter
        · rfl
        · exact absurd h hcap
      simp [is_satisfied, hcap', hpos, hobj]

/-- Witness for `trial_iteration_bound` at `k = 1`, a constant objective and
`mr = ig = 1`. -/
theorem trial_iteration_bound_witness :
    1 ≤ 1 ∧
    (numItersCapped 1 (fun _ => 0) 1 1 ≤ 2 ∧
      (∀ c iter, 1 < iter → is_satisfied (some 1) 1 1 c iter = false) ∧
      (∀ c iter, 0 < iter → c < 1 * 1 → is_satisfied (some 1) 1 1 c iter = false)) :=
  ⟨le_refl 1, trial_iteration_bound 1 (fun _ => 0) 1 1 (le_refl 1)⟩

open Matrix in
/-- Claim C9: at the start of every trial the initial gradients equal the
spec's `gW = W·H·Hᵗ − V·Hᵗ` and `gH = Wᵗ·W·H − Wᵗ·V` (the code parenthesizes
`W·(H·Hᵗ)`, equal by associativity), the initial gradient norm is the
Frobenius norm of `vstack(gW, gHᵗ)` (stated via squares), and both tolerances
are initialized to `max(0.001, min_residuals) * init_grad`. -/
theorem init_phase_formulas {m r n : ℕ} (V : Matrix (Fin m) (Fin n) ℚ)
    (W : Matrix (Fin m) (Fin r) ℚ) (H : Matrix (Fin r) (Fin n) ℚ)
    (mr ig : ℚ) :
    gWinit V W H = W * H * Hᵀ - V * Hᵀ ∧
    gHinit V W H = Wᵀ * W * H - Wᵀ * V ∧
    initGradSq V W H = mnormSq (mvstack (W * H * Hᵀ - V * Hᵀ) ((Wᵀ * W * H - Wᵀ * V)ᵀ)) ∧
    epsWinit mr ig = max (1 / 1000) mr * ig ∧
    epsHinit mr ig = epsWinit mr ig := by
  refine ⟨?_, ?_, ?_, rfl, rfl⟩
  · rw [gWinit, Matrix.mul_assoc]
  · rw [gHinit]
  · rw [initGradSq, gWinit, gHinit, Matrix.mul_assoc W H Hᵀ]

/-- Helper: summing a mapped flattening row by row. -/
theorem mflat_map_sum {α : Type} (f : α → ℚ) :
    ∀ L : List (List α), ((mflat L).map f).sum = (L.map (fun l => (l.map f).sum)).sum := by
  intro L
  induction L with
  | nil => rfl
  | cons l L ih =>
    simp only [mflat, List.foldr_cons, List.map_append, List.sum_append, List.map_cons,
      List.sum_cons] at ih ⊢
    rw [ih]

/-- Helper: summing a mapped conditional `filterMap` as a sum of an
`if`-guarded map. -/
theorem filterMap_if_sum {α β : Type} (P : α → Prop) [DecidablePred P] (g : α → β)
    (f : β → ℚ) :
    ∀ l : List α,
      ((l.filterMap (fun a => if P a then some (g a) else none)).map f).sum =
        (l.map (fun a => if P a then f (g a) else 0)).sum := by
  intro l
  induction l with
  | nil => rfl
  | cons a l ih =>
    by_cases h : P a
    · simp [List.filterMap_cons, h, ih]
    · simp [List.filterMap_cons, h, ih]

/-- Helper: a sum over a zipped pair of equally long lists as an
index-indexed sum. -/
theorem zip_map_sum {α β : Type} (f : α × β → ℚ) (d₁ : α) (d₂ : β) :
    ∀ (xs : List α) (ys : List β), xs.length = ys.length →
      ((xs.zip ys).map f).sum =
        ∑ j ∈ Finset.range xs.length, f (xs.getD j d₁, ys.getD j d₂) := by
  intro xs
  induction xs with
  | nil => intro ys h; simp
  | cons x xs ih =>
    intro ys h
    cases ys with
    | nil => simp at h
    | cons y ys =>
      simp only [List.zip_cons_cons, List.map_cons, List.sum_cons, List.length_cons]
      rw [Finset.sum_range_succ']
      simp only [List.getD_cons_succ, List.getD_cons_zero]
      rw [ih ys (by simpa using h)]
      ring

/-- Helper: a sum over `List.range` as a `Finset.range` sum. -/
theorem range_map_sum (f : Nat → ℚ) :
    ∀ n : Nat, ((List.range n).map f).sum = ∑ j ∈ Finset.range n, f j := by
  intro n
  induction n with
  | zero => rfl
  | succ n ih =>
    rw [List.range_succ, List.map_append, List.sum_append, Finset.sum_range_succ, ih]
    simp

/-- Helper: a sum over a duplicate-free list of in-range naturals equals the
full-range sum of a function vanishing off the list. -/
theorem sum_nodup_list_eq_range (cs : List Nat) (m : Nat) (F : Nat → ℚ)
    (hnd : cs.Nodup) (hsub : ∀ c ∈ cs, c < m) (hz : ∀ c, c < m → c ∉ cs → F c = 0) :
    (cs.map F).sum = ∑ c ∈ Finset.range m, F c := by
  rw [← List.sum_toFinset F hnd]
  apply Finset.sum_subset
  · intro c hc
    rw [Finset.mem_range]
    exact hsub c (List.mem_toFinset.mp hc)
  · intro c hcm hcn
    exact hz c (Finset.mem_range.mp hcm) (fun h => hcn (List.mem_toFinset.mpr h))

/-- Helper: a column without a stored position in row `r` holds a zero. -/
theorem entry_eq_zero_of_not_mem (X : Csr) (r c : Nat) (h : c ∉ rowCols X r) :
    X.entry r c = 0 := by
  unfold Csr.entry
  have hnil : (rowPos X r).filterMap (fun p =>
      if X.indices.getD p 0 = c then some (X.data.getD p 0) else none) = [] := by
    rw [List.filterMap_eq_nil_iff]
    intro p hp
    have hne : X.indices.getD p 0 ≠ c := by
      intro hc
      exact h (by unfold rowCols; exact List.mem_map.mpr ⟨p, hp, hc⟩)
    exact if_neg hne
  rw [hnil]
  rfl

/-- Helper: the inner `while` loop of the sparse extraction consumes the
positions `now, ..., upto - 1` and appends their filtered contributions. -/
theorem csrRowPass_spec (X : Csr) (Y : Nat → Nat → ℚ) (r upto : Nat) :
    ∀ fuel now acc, now ≤ upto → upto - now ≤ fuel →
      csrRowPass X Y r upto fuel now acc =
        (upto, acc ++ (List.range' now (upto - now)).filterMap (rowFilterFun X Y r)) := by
  intro fuel
  induction fuel with
  | zero =>
    intro now acc h1 h2
    have hnu : now = upto := by omega
    subst hnu
    simp [csrRowPass, Nat.sub_self]
  | succ fuel ih =>
    intro now acc h1 h2
    by_cases h : now < upto
    · have hlen : upto - now = (upto - (now + 1)) + 1 := by omega
      simp only [csrRowPass, if_pos h]
      rw [ih (now + 1) _ (by omega) (by omega), hlen, List.range'_succ,
        List.filterMap_cons]
      cases hf : rowFilterFun X Y r now with
      | none => simp [hf]
      | some e => simp [hf]
    · have hnu : now = upto := by omega
      subst hnu
      simp [csrRowPass, h, Nat.sub_self]

/-- Helper: the outer row loop of the sparse extraction, run over rows
`r, ..., r + k - 1` with the position counter at `indptr[r]`, appends the
filtered contributions of those rows. -/
theorem csrForGo_spec (X : Csr) (Y : Nat → Nat → ℚ)
    (hmono : ∀ r, r < X.rows → rowStart X r ≤ rowStart X (r + 1)) :
    ∀ k r now acc, r + k ≤ X.rows → now = rowStart X r →
      csrForGo X Y (List.range' r k) now acc =
        acc ++ mflat ((List.range' r k).map (rowFiltered X Y)) := by
  intro k
  induction k with
  | zero =>
    intro r now acc h hnow
    simp [csrForGo, mflat]
  | succ k ih =>
    intro r now acc h hnow
    rw [List.range'_succ]
    simp only [csrForGo]
    rw [hnow, csrRowPass_spec X Y r (rowStart X (r + 1)) (rowStart X (r + 1))
      (rowStart X r) acc (hmono r (by omega)) (Nat.sub_le _ _)]
    rw [ih (r + 1) (rowStart X (r + 1)) _ (by omega) rfl]
    simp only [rowFiltered, rowPos, rowLen, List.map_cons, mflat, List.foldr_cons,
      List.append_assoc]

/-- Helper: under the `indptr` well-formedness half of `Csr.wf`, the
imperative sparse extraction agrees with its declarative description. -/
theorem csrExtract_eq_filtered (X : Csr) (Y : Nat → Nat → ℚ)
    (h0 : rowStart X 0 = 0)
    (hmono : ∀ r, r < X.rows → rowStart X r ≤ rowStart X (r + 1)) :
    csrExtract X Y = csrFiltered X Y := by
  unfold csrExtract csrFiltered
  rw [List.range_eq_range']
  rw [csrForGo_spec X Y hmono X.rows 0 0 [] (by omega) h0.symm]
  rfl

/-- Helper: the squared norm of one extracted row is the full-range column
sum of the active-entry squares. -/
theorem rowFiltered_normSq (X : Csr) (Y : Nat → Nat → ℚ) (r : Nat)
    (hnd : (rowCols X r).Nodup) (hlt : ∀ c ∈ rowCols X r, c < X.cols) :
    normSqE (rowFiltered X Y r) =
      ∑ c ∈ Finset.range X.cols,
        (if X.entry r c < 0 ∨ 0 < Y r c then (X.entry r c) ^ 2 else 0) := by
  unfold normSqE rowFiltered
  have hfn : rowFilterFun X Y r = (fun p =>
      if X.entry r (X.indices.getD p 0) < 0 ∨ 0 < Y r (X.indices.getD p 0) then
        some ((r, X.indices.getD p 0, X.entry r (X.indices.getD p 0)) : Nat × Nat × ℚ)
      else none) := rfl
  rw [hfn, filterMap_if_sum
    (fun p => X.entry r (X.indices.getD p 0) < 0 ∨ 0 < Y r (X.indices.getD p 0))
    (fun p => ((r, X.indices.getD p 0, X.entry r (X.indices.getD p 0)) : Nat × Nat × ℚ))
    (fun e => e.2.2 ^ 2)]
  have hmm : ((rowPos X r).map (fun p =>
      if X.entry r (X.indices.getD p 0) < 0 ∨ 0 < Y r (X.indices.getD p 0) then
        ((r, X.indices.getD p 0, X.entry r (X.indices.getD p 0)) : Nat × Nat × ℚ).2.2 ^ 2
      else 0)) =
      ((rowCols X r).map (fun c =>
        if X.entry r c < 0 ∨ 0 < Y r c then (X.entry r c) ^ 2 else 0)) := by
    unfold rowCols
    rw [List.map_map]
    rfl
  rw [hmm]
  apply sum_nodup_list_eq_range (rowCols X r) X.cols _ hnd hlt
  intro c _ hcn
  rw [entry_eq_zero_of_not_mem X r c hcn]
  by_cases hy : 0 < Y r c
  · simp [hy]
  · simp [hy]

/-- Helper: squared Frobenius norm of the sparse extraction as a double sum
over all matrix positions. -/
theorem csrExtract_normSq (X : Csr) (Y : Nat → Nat → ℚ) (hwf : X.wf) :
    normSqE (csrExtract X Y) =
      ∑ r ∈ Finset.range X.rows, ∑ c ∈ Finset.range X.cols,
        (if X.entry r c < 0 ∨ 0 < Y r c then (X.entry r c) ^ 2 else 0) := by
  obtain ⟨h0, hmono, hnd, hlt⟩ := hwf
  rw [csrExtract_eq_filtered X Y h0 hmono]
  unfold csrFiltered normSqE
  rw [mflat_map_sum, List.map_map]
  have hcongr : ((List.range X.rows).map
      ((fun l : List (Nat × Nat × ℚ) => (l.map (fun e => e.2.2 ^ 2)).sum) ∘
        rowFiltered X Y)).sum =
      ((List.range X.rows).map (fun r => normSqE (rowFiltered X Y r))).sum := rfl
  rw [hcongr, range_map_sum]
  apply Finset.sum_congr rfl
  intro r hr
  exact rowFiltered_normSq X Y r (hnd r (Finset.mem_range.mp hr))
    (hlt r (Finset.mem_range.mp hr))

/-- Helper: squared Frobenius norm of the dense extraction as a double sum
over all matrix positions. -/
theorem extractDense_normSq (X Y : Mat) (hs : sameShape X Y) :
    normSqList (extractDense X Y) =
      ∑ i ∈ Finset.range X.length, ∑ j ∈ Finset.range ((X.getD i []).length),
        (if (X.getD i []).getD j 0 < 0 ∨ 0 < (Y.getD i []).getD j 0 then
          ((X.getD i []).getD j 0) ^ 2 else 0) := by
  obtain ⟨hlen, hrow⟩ := hs
  unfold normSqList extractDense
  rw [mflat_map_sum, List.map_map]
  have hinner : ((X.zip Y).map
      ((fun l : List ℚ => (l.map (fun x => x ^ 2)).sum) ∘ (fun rp =>
        (rp.1.zip rp.2).filterMap (fun e =>
          if e.1 < 0 ∨ 0 < e.2 then some e.1 else none)))) =
      ((X.zip Y).map (fun rp =>
        ((rp.1.zip rp.2).map (fun e => if e.1 < 0 ∨ 0 < e.2 then e.1 ^ 2 else 0)).sum)) := by
    apply List.map_congr_left
    intro rp _
    exact filterMap_if_sum (fun e : ℚ × ℚ => e.1 < 0 ∨ 0 < e.2) (fun e => e.1)
      (fun x => x ^ 2) (rp.1.zip rp.2)
  rw [hinner]
  rw [zip_map_sum (fun rp : List ℚ × List ℚ =>
      ((rp.1.zip rp.2).map (fun e => if e.1 < 0 ∨ 0 < e.2 then e.1 ^ 2 else 0)).sum)
      ([] : List ℚ) ([] : List ℚ) X Y hlen]
  apply Finset.sum_congr rfl
  intro i hi
  exact zip_map_sum (fun e : ℚ × ℚ => if e.1 < 0 ∨ 0 < e.2 then e.1 ^ 2 else 0)
    0 0 (X.getD i []) (Y.getD i []) (hrow i (Finset.mem_range.mp hi))

/-- Claim C6: for a gradient matrix `G` and a same-shaped nonnegative factor
matrix `X`, the projected-gradient extraction selects exactly the entries
with `G[i,j] < 0` or `X[i,j] > 0` — all other entries contribute zero — and
its Frobenius norm is the Frobenius norm over those selected entries (stated
via squared norms, which determine the nonnegative norms), on the dense and
sparse code paths alike. -/
theorem extract_active_norm (Xd Yd : Mat) (hshape : sameShape Xd Yd)
    (hYnn : matNonneg Yd) (Xs : Csr) (Ys : Nat → Nat → ℚ)
    (hwf : Xs.wf) (hYsnn : ∀ r c, 0 ≤ Ys r c) :
    normSqList (extractDense Xd Yd) = denseActiveSumSq Xd Yd ∧
    normSqE (csrExtract Xs Ys) = csrActiveSumSq Xs Ys :=
  ⟨extractDense_normSq Xd Yd hshape, csrExtract_normSq Xs Ys hwf⟩

/-- Witness for `extract_active_norm`: a concrete 2×2 dense pair and a
concrete 2×2 sparse matrix against the zero factor matrix. -/
theorem extract_active_norm_witness :
    sameShape ([[-1, 2], [0, 3]] : Mat) [[0, 1], [5, 0]] ∧
    matNonneg [[0, 1], [5, 0]] ∧
    Csr.wf csrEx ∧
    (∀ r c, 0 ≤ zeroFac r c) ∧
    (normSqList (extractDense [[-1, 2], [0, 3]] [[0, 1], [5, 0]]) =
      denseActiveSumSq [[-1, 2], [0, 3]] [[0, 1], [5, 0]] ∧
     normSqE (csrExtract csrEx zeroFac) = csrActiveSumSq csrEx zeroFac) :=
  ⟨by with_unfolding_all decide, by with_unfolding_all decide,
   by with_unfolding_all decide, fun r c => le_refl 0,
   extract_active_norm [[-1, 2], [0, 3]] [[0, 1], [5, 0]]
     (by with_unfolding_all decide) (by with_unfolding_all decide)
     csrEx zeroFac (by with_unfolding_all decide) (fun r c => le_refl 0)⟩

/-- Helper: a conditional `filterMap` whose guard always holds is a plain
map. -/
theorem filterMap_if_eq_map {α β : Type} (P : α → Prop) [DecidablePred P]
    (g : α → β) :
    ∀ l : List α, (∀ a ∈ l, P a) →
      l.filterMap (fun a => if P a then some (g a) else none) = l.map g := by
  intro l
  induction l with
  | nil => intro _; rfl
  | cons a l ih =>
    intro h
    rw [List.filterMap_cons, if_pos (h a (List.mem_cons_self a l)), List.map_cons,
      ih (fun b hb => h b (List.mem_cons_of_mem a hb))]

/-- Helper: a conditional `filterMap` whose guard never holds is empty. -/
theorem filterMap_if_eq_nil {α β : Type} (P : α → Prop) [DecidablePred P]
    (g : α → β) :
    ∀ l : List α, (∀ a ∈ l, ¬P a) →
      l.filterMap (fun a => if P a then some (g a) else none) = [] := by
  intro l
  induction l with
  | nil => intro _; rfl
  | cons a l ih =>
    intro h
    rw [List.filterMap_cons, if_neg (h a (List.mem_cons_self a l)),
      ih (fun b hb => h b (List.mem_cons_of_mem a hb))]

/-- Helper: flattening a map that sends every element to `[]` gives `[]`. -/
theorem mflat_eq_nil {α β : Type} (f : β → List α) :
    ∀ L : List β, (∀ b ∈ L, f b = []) → mflat (L.map f) = [] := by
  intro L
  induction L with
  | nil => intro _; rfl
  | cons b L ih =>
    intro h
    simp only [List.map_cons, mflat, List.foldr_cons] at ih ⊢
    rw [h b (List.mem_cons_self b L), ih (fun c hc => h c (List.mem_cons_of_mem b hc))]
    rfl

/-- Helper: a default-zero lookup in a list of nonnegative rationals is
nonnegative. -/
theorem getD_nonneg (l : List ℚ) (h : ∀ v ∈ l, 0 ≤ v) : ∀ p : Nat, 0 ≤ l.getD p 0 := by
  induction l with
  | nil => intro p; simp [List.getD]
  | cons a l ih =>
    intro p
    cases p with
    | zero => simpa using h a (List.mem_cons_self a l)
    | succ p =>
      rw [List.getD_cons_succ]
      exact ih (fun v hv => h v (List.mem_cons_of_mem a hv)) p

/-- Helper: every element of a sparse matrix with nonnegative stored data is
nonnegative. -/
theorem entry_nonneg (X : Csr) (hd : ∀ v ∈ X.data, 0 ≤ v) (r c : Nat) :
    0 ≤ X.entry r c := by
  unfold Csr.entry
  apply List.sum_nonneg
  intro x hx
  obtain ⟨p, _, hp⟩ := List.mem_filterMap.mp hx
  by_cases hc : X.indices.getD p 0 = c
  · rw [if_pos hc] at hp
    cases hp
    exact getD_nonneg X.data hd p
  · rw [if_neg hc] at hp
    cases hp

/-- Helper: a single extracted row where the factor row is everywhere
positive returns the gradient row unchanged. -/
theorem row_extract_allpos (xs : List ℚ) :
    ∀ ys : List ℚ, xs.length = ys.length → (∀ y ∈ ys, 0 < y) →
      (xs.zip ys).filterMap (fun e =>
        if e.1 < 0 ∨ 0 < e.2 then some e.1 else none) = xs := by
  induction xs with
  | nil => intro ys _ _; rfl
  | cons x xs ih =>
    intro ys hlen hpos
    cases ys with
    | nil => simp at hlen
    | cons y ys =>
      rw [List.zip_cons_cons, List.filterMap_cons,
        if_pos (Or.inr (hpos y (List.mem_cons_self y ys)))]
      rw [ih ys (by simpa using hlen) (fun z hz => hpos z (List.mem_cons_of_mem y hz))]

/-- Helper: the dense extraction of a no-negative-entry gradient against an
everywhere-positive factor is the row-major flattening of the gradient. -/
theorem extractDense_allpos (X : Mat) :
    ∀ Y : Mat, sameShape X Y → (∀ row ∈ Y, ∀ y ∈ row, 0 < y) →
      extractDense X Y = mflat X := by
  induction X with
  | nil => intro Y _ _; rfl
  | cons xr X ih =>
    intro Y hs hp
    obtain ⟨hlen, hrow⟩ := hs
    cases Y with
    | nil => simp at hlen
    | cons yr Y =>
      simp only [extractDense, List.zip_cons_cons, List.map_cons, mflat,
        List.foldr_cons]
      have h0 := hrow 0 (by simp)
      simp only [List.getD_cons_zero] at h0
      rw [row_extract_allpos xr yr h0 (hp yr (List.mem_cons_self yr Y))]
      have hrest : extractDense X Y = mflat X := by
        apply ih Y ⟨by simpa using hlen, ?_⟩
          (fun row hr => hp row (List.mem_cons_of_mem yr hr))
        intro i hi
        have := hrow (i + 1) (by simpa using hi)
        simpa using this
      simp only [extractDense, mflat] at hrest
      rw [hrest]

/-- Helper: the dense extraction of a nonnegative gradient against an
all-zero factor is empty. -/
theorem extractDense_zero (X Y : Mat) (hX : matNonneg X)
    (hYz : ∀ row ∈ Y, ∀ y ∈ row, y = 0) : extractDense X Y = [] := by
  unfold extractDense
  apply mflat_eq_nil
  intro rp hrp
  apply filterMap_if_eq_nil
  intro e he
  obtain ⟨hx, hy⟩ := List.of_mem_zip he
  obtain ⟨hrx, hry⟩ := List.of_mem_zip hrp
  rw [hYz rp.2 hry e.2 hy]
  push_neg
  exact ⟨hX rp.1 hrx e.1 hx, le_refl 0⟩

/-- Helper: the sparse extraction against an everywhere-positive factor
returns every structural entry with its stored value. -/
theorem csrExtract_allpos (X : Csr) (Y : Nat → Nat → ℚ)
    (h0 : rowStart X 0 = 0)
    (hmono : ∀ r, r < X.rows → rowStart X r ≤ rowStart X (r + 1))
    (hpos : ∀ r c, 0 < Y r c) :
    csrExtract X Y = csrStructural X := by
  rw [csrExtract_eq_filtered X Y h0 hmono]
  unfold csrFiltered csrStructural
  congr 1
  apply List.map_congr_left
  intro r _
  unfold rowFiltered
  have hfn : rowFilterFun X Y r = (fun p =>
      if X.entry r (X.indices.getD p 0) < 0 ∨ 0 < Y r (X.indices.getD p 0) then
        some ((r, X.indices.getD p 0, X.entry r (X.indices.getD p 0)) : Nat × Nat × ℚ)
      else none) := rfl
  rw [hfn, filterMap_if_eq_map
    (fun p => X.entry r (X.indices.getD p 0) < 0 ∨ 0 < Y r (X.indices.getD p 0))
    (fun p => ((r, X.indices.getD p 0, X.entry r (X.indices.getD p 0)) : Nat × Nat × ℚ))
    (rowPos X r) (fun p _ => Or.inr (hpos r (X.indices.getD p 0)))]

/-- Helper: the sparse extraction of a nonnegative-data matrix against an
all-zero factor is empty. -/
theorem csrExtract_zeroY (X : Csr) (Y : Nat → Nat → ℚ)
    (h0 : rowStart X 0 = 0)
    (hmono : ∀ r, r < X.rows → rowStart X r ≤ rowStart X (r + 1))
    (hd : ∀ v ∈ X.data, 0 ≤ v) (hz : ∀ r c, Y r c = 0) :
    csrExtract X Y = [] := by
  rw [csrExtract_eq_filtered X Y h0 hmono]
  unfold csrFiltered
  apply mflat_eq_nil
  intro r _
  unfold rowFiltered
  have hfn : rowFilterFun X Y r = (fun p =>
      if X.entry r (X.indices.getD p 0) < 0 ∨ 0 < Y r (X.indices.getD p 0) then
        some ((r, X.indices.getD p 0, X.entry r (X.indices.getD p 0)) : Nat × Nat × ℚ)
      else none) := rfl
  rw [hfn]
  apply filterMap_if_eq_nil
  intro p _
  rw [hz r (X.indices.getD p 0)]
  push_neg
  exact ⟨entry_nonneg X hd r (X.indices.getD p 0), le_refl 0⟩

/-- Claim C8, counterexample: `csrNeg` is the all-nonpositive sparse matrix
`[[-1]]`; extracting it against an all-zero factor matrix keeps the negative
entry (it satisfies `G[i,j] < 0`, hence is active), so the result is the
written entry `(0, 0, -1)` — not a zero matrix of `G`'s shape as the claim
states. -/
theorem extract_nonpos_cex :
    (∀ r, r < csrNeg.rows → ∀ c, c < csrNeg.cols → csrNeg.entry r c ≤ 0) ∧
    csrExtract csrNeg zeroFac = [(0, 0, -1)] ∧
    ¬(∀ e ∈ csrExtract csrNeg zeroFac, e.2.2 = 0) := by
  refine ⟨?_, ?_, ?_⟩ <;> with_unfolding_all decide

/-- Claim C8, amended: extraction at its extremes.  A gradient `G` with no
negative entries extracted against an all-positive factor is returned
unchanged — on the sparse path exactly `G`'s structural entries with `G`'s
values, on the dense path the same entries as a flat row-major sequence —
and a gradient with no negative entries extracted against an all-zero factor
gives an empty (all-zero) result on both paths; an all-nonpositive `G`
keeps its strictly negative entries (see the counterexample). -/
theorem extract_extremes
    (Xs : Csr) (Ys : Nat → Nat → ℚ) (hwf : Xs.wf)
    (hXsnn : ∀ v ∈ Xs.data, 0 ≤ v) (hpos : ∀ r c, 0 < Ys r c)
    (Xd Yd : Mat) (hshape : sameShape Xd Yd) (hXnn : matNonneg Xd)
    (hYpos : ∀ row ∈ Yd, ∀ y ∈ row, 0 < y)
    (Xs' : Csr) (hwf' : Xs'.wf) (hd' : ∀ v ∈ Xs'.data, 0 ≤ v)
    (Ys' : Nat → Nat → ℚ) (hz' : ∀ r c, Ys' r c = 0)
    (Xd' Yd' : Mat) (hXnn' : matNonneg Xd') (hYz' : ∀ row ∈ Yd', ∀ y ∈ row, y = 0) :
    csrExtract Xs Ys = csrStructural Xs ∧
    extractDense Xd Yd = mflat Xd ∧
    csrExtract Xs' Ys' = [] ∧
    extractDense Xd' Yd' = [] :=
  ⟨csrExtract_allpos Xs Ys hwf.1 hwf.2.1 hpos,
   extractDense_allpos Xd Yd hshape hYpos,
   csrExtract_zeroY Xs' Ys' hwf'.1 hwf'.2.1 hd' hz',
   extractDense_zero Xd' Yd' hXnn' hYz'⟩

/-- Witness for `extract_extremes` at the nonnegative sparse matrix
`csrPos`, dense pairs `[[1, 2], [0, 3]]` v. `[[1, 1], [2, 3]]` and
`[[1, 0]]` v. `[[0, 0]]`, and the constant factor matrices. -/
theorem extract_extremes_witness :
    Csr.wf csrPos ∧ (∀ v ∈ csrPos.data, 0 ≤ v) ∧ (∀ r c, 0 < oneFac r c) ∧
    sameShape ([[1, 2], [0, 3]] : Mat) [[1, 1], [2, 3]] ∧
    matNonneg [[1, 2], [0, 3]] ∧
    (∀ row ∈ ([[1, 1], [2, 3]] : Mat), ∀ y ∈ row, 0 < y) ∧
    (∀ r c, zeroFac r c = 0) ∧
    matNonneg [[1, 0]] ∧ (∀ row ∈ ([[0, 0]] : Mat), ∀ y ∈ row, y = 0) ∧
    (csrExtract csrPos oneFac = csrStructural csrPos ∧
     extractDense [[1, 2], [0, 3]] [[1, 1], [2, 3]] = mflat [[1, 2], [0, 3]] ∧
     csrExtract csrPos zeroFac = [] ∧
     extractDense [[1, 0]] [[0, 0]] = []) :=
  ⟨by with_unfolding_all decide, by with_unfolding_all decide,
   fun r c => one_pos, by with_unfolding_all decide, by with_unfolding_all decide,
   by with_unfolding_all decide, fun r c => rfl, by with_unfolding_all decide,
   by with_unfolding_all decide,
   extract_extremes csrPos oneFac (by with_unfolding_all decide)
     (by with_unfolding_all decide) (fun r c => one_pos)
     [[1, 2], [0, 3]] [[1, 1], [2, 3]] (by with_unfolding_all decide)
     (by with_unfolding_all decide) (by with_unfolding_all decide)
     csrPos (by with_unfolding_all decide) (by with_unfolding_all decide)
     zeroFac (fun r c => rfl)
     [[1, 0]] [[0, 0]] (by with_unfolding_all decide) (by with_unfolding_all decide)⟩

/-- Helper: the projection `max(., 0)` produces a nonnegative matrix. -/
theorem mmax0_nonneg (A : Mat) : matNonneg (mmax0 A) := by
  intro row hrow x hx
  obtain ⟨r, _, hr⟩ := List.mem_map.mp hrow
  subst hr
  obtain ⟨y, _, hy⟩ := List.mem_map.mp hx
  subst hy
  exact le_max_right y 0

/-- Helper: transposition preserves entrywise nonnegativity. -/
theorem mtrans_nonneg (A : Mat) (h : matNonneg A) : matNonneg (mtrans A) := by
  intro row hrow x hx
  obtain ⟨j, _, hj⟩ := List.mem_map.mp hrow
  subst hj
  obtain ⟨r, hr, hx'⟩ := List.mem_map.mp hx
  subst hx'
  exact getD_nonneg r (h r hr) j

/-- Helper: every value the line search can return with `ok` is entrywise
nonnegative, provided the entry factor and the remembered proposal are: each
accepted value is the projected proposal `max(H - alpha*grad, 0)`, the
remembered previous proposal, or the unchanged entry factor. -/
theorem lsGo_nonneg (WtW grad : Mat) :
    ∀ fuel n H alpha decrA Hp H' a',
      matNonneg H → (∀ hp, Hp = some hp → matNonneg hp) →
      lsGo WtW grad fuel n H alpha decrA Hp = .ok (H', a') → matNonneg H' := by
  intro fuel
  induction fuel with
  | zero =>
    intro n H alpha decrA Hp H' a' hH _ h
    simp only [lsGo] at h
    cases h
    exact hH
  | succ fuel ih =>
    intro n H alpha decrA Hp H' a' hH hHp h
    simp only [lsGo, bind, Except.bind] at h
    cases hdq : dQdOf WtW (msub (projStep H alpha grad) H) with
    | error e => rw [hdq] at h; cases h
    | ok dQd =>
      rw [hdq] at h
      by_cases hn : n = 1
      · simp only [if_pos hn] at h
        by_cases hs : suffAccept (graddOf grad (msub (projStep H alpha grad) H)) dQd
        · simp only [hs] at h
          simp only [Bool.not_true] at h
          by_cases ha : alleqD H (projStep H alpha grad)
          · simp only [ha, Bool.or_true] at h
            cases h
            exact hH
          · simp only [ha, Bool.or_false, Bool.not_false] at h
            exact ih (n + 1) H _ _ _ H' a' hH
              (fun hp hhp => by cases hhp; exact mmax0_nonneg _) h
        · simp only [eq_false_of_ne_true hs] at h
          simp only [Bool.not_false, if_true] at h
          simp only [Bool.false_eq_true, if_false] at h
          exact ih (n + 1) H _ _ _ H' a' hH
            (fun hp hhp => by cases hhp; exact hH) h
      · simp only [if_neg hn] at h
        cases decrA with
        | none => cases h
        | some da =>
          cases da with
          | true =>
            by_cases hs : suffAccept (graddOf grad (msub (projStep H alpha grad) H)) dQd
            · simp only [hs, if_true] at h
              cases h
              exact mmax0_nonneg _
            · simp only [eq_false_of_ne_true hs, Bool.false_eq_true, if_false] at h
              exact ih (n + 1) H _ _ _ H' a' hH hHp h
          | false =>
            cases Hp with
            | none => cases h
            | some hpm =>
              by_cases hs : suffAccept (graddOf grad (msub (projStep H alpha grad) H)) dQd
              · simp only [hs, Bool.not_true, Bool.false_or] at h
                by_cases ha : alleqD hpm (projStep H alpha grad)
                · simp only [ha, if_true] at h
                  cases h
                  exact hHp _ rfl
                · simp only [ha, Bool.false_eq_true, if_false] at h
                  exact ih (n + 1) H _ _ _ H' a' hH
                    (fun hq hhq => by cases hhq; exact mmax0_nonneg _) h
              · simp only [eq_false_of_ne_true hs, Bool.not_false, Bool.true_or,
                  if_true] at h
                cases h
                exact hHp _ rfl

/-- Helper: every factor the subproblem outer loop returns with `ok` is
entrywise nonnegative when the entry factor is. -/
theorem subGo_nonneg (WtW WtV : Mat) (epsH : ℚ) :
    ∀ fuel iter H alpha last H' g' i',
      matNonneg H → subGo WtW WtV epsH fuel iter H alpha last = .ok (H', g', i') →
      matNonneg H' := by
  intro fuel
  induction fuel with
  | zero =>
    intro iter H alpha last H' g' i' hH h
    simp only [subGo] at h
    cases last with
    | none => cases h
    | some gi =>
      cases h
      exact hH
  | succ fuel ih =>
    intro iter H alpha last H' g' i' hH h
    simp only [subGo, bind, Except.bind] at h
    cases hm : mdot WtW H with
    | error e => rw [hm] at h; cases h
    | ok WtWH =>
      rw [hm] at h
      by_cases hb : normLt (normSqList (extractDense (msub WtWH WtV) H)) epsH
      · simp only [hb, if_true] at h
        cases h
        exact hH
      · simp only [eq_false_of_ne_true hb, Bool.false_eq_true, if_false] at h
        cases hls : lineSearch WtW (msub WtWH WtV) H alpha with
        | error e => rw [hls] at h; cases h
        | ok s =>
          rw [hls] at h
          have hs1 : matNonneg s.1 := by
            rcases s with ⟨Hs, as⟩
            exact lsGo_nonneg WtW (msub WtWH WtV) 20 0 H alpha none none Hs as hH
              (fun hp hhp => by cases hhp) hls
          exact ih (iter + 1) s.1 s.2 _ H' g' i' hs1 h

/-- Helper: every factor `_subproblem` returns with `ok` is entrywise
nonnegative when the initial factor is. -/
theorem subproblem_nonneg (V W Hinit : Mat) (epsH : ℚ) (max_iter : Nat)
    (H' g' : Mat) (i' : Nat) (hH : matNonneg Hinit)
    (h : subproblem V W Hinit epsH max_iter = .ok (H', g', i')) : matNonneg H' := by
  simp only [subproblem, bind, Except.bind] at h
  cases h1 : mdot (mtrans W) V with
  | error e => rw [h1] at h; cases h
  | ok WtV =>
    rw [h1] at h
    cases h2 : subWtW W with
    | error e => rw [h2] at h; cases h
    | ok WtW =>
      rw [h2] at h
      exact subGo_nonneg WtW WtV epsH max_iter 0 Hinit 1 none H' g' i' hH h

/-- Claim C7: starting from nonnegative `W` and `H`, both factors are
entrywise nonnegative after every completed `update` step: every value a
subproblem solve can accept is the nonnegative projection
`max(H - alpha*grad, 0)`, a previously accepted projected proposal, or the
unchanged nonnegative input factor (see `lsGo_nonneg`), so no update
introduces a negative entry. -/
theorem update_nonneg (V W H : Mat) (epsW epsH : ℚ) (W' gW H' gH : Mat)
    (eW eH : ℚ) (hW : matNonneg W) (hH : matNonneg H)
    (h : update V W H epsW epsH = .ok (W', gW, H', gH, eW, eH)) :
    matNonneg W' ∧ matNonneg H' := by
  simp only [update, bind, Except.bind] at h
  cases h1 : subproblem (mtrans V) (mtrans H) (mtrans W) epsW 1000 with
  | error e => rw [h1] at h; cases h
  | ok w =>
    rw [h1] at h
    dsimp only at h
    cases h2 : subproblem V (mtrans w.1) H epsH 1000 with
    | error e => rw [h2] at h; dsimp only at h; cases h
    | ok hres =>
      rw [h2] at h
      dsimp only at h
      cases h
      constructor
      · apply mtrans_nonneg
        rcases w with ⟨Wt, gWt, i1⟩
        exact subproblem_nonneg (mtrans V) (mtrans H) (mtrans W) epsW 1000 Wt gWt i1
          (mtrans_nonneg W hW) h1
      · rcases hres with ⟨Hs, gHs, i2⟩
        exact subproblem_nonneg V (mtrans w.1) H epsH 1000 Hs gHs i2 hH h2

/-- Witness for `update_nonneg`: the 1×1 run `V = W = H = [[1]]`,
`epsW = epsH = 1`, where both subproblem solves stop immediately and return
the seeded factors. -/
theorem update_nonneg_witness :
    matNonneg ([[1]] : Mat) ∧
    update [[1]] [[1]] [[1]] 1 1 = .ok ([[1]], [[0]], [[1]], [[0]], 1, 1) ∧
    (matNonneg ([[1]] : Mat) ∧ matNonneg ([[1]] : Mat)) :=
  ⟨by with_unfolding_all decide, by with_unfolding_all rfl,
   update_nonneg [[1]] [[1]] [[1]] 1 1 [[1]] [[0]] [[1]] [[0]] 1 1
     (by with_unfolding_all decide) (by with_unfolding_all decide)
     (by with_unfolding_all rfl)⟩

/-- Claim C10: whenever at least one operand of `__alleq` is sparse, the
conditional-swap statement's right-hand side is a three-element tuple
(`(Y, X, Y)` — both arms of the conditional are `X`), so unpacking it into
the two targets raises an unpacking error and the helper never returns a
boolean on the sparse path; only the dense-dense path returns the
elementwise-equality result. -/
theorem alleq_sparse_unpack (X Y : TMat) (h : (X.isSp || Y.isSp) = true)
    (a b : Mat) :
    (alleqSwapTuple X Y).length = 3 ∧
    alleq X Y = .error .unpackErr ∧
    alleq (.dense a) (.dense b) = .ok (alleqD a b) := by
  refine ⟨rfl, ?_, rfl⟩
  simp [alleq, h, alleqSwapTuple, unpack2, bind, Except.bind]

/-- Witness for `alleq_sparse_unpack` at a sparse-dense pair and a concrete
dense-dense pair. -/
theorem alleq_sparse_unpack_witness :
    ((TMat.sparse csrNeg).isSp || (TMat.dense [[1]]).isSp) = true ∧
    ((alleqSwapTuple (.sparse csrNeg) (.dense [[1]])).length = 3 ∧
     alleq (.sparse csrNeg) (.dense [[1]]) = .error .unpackErr ∧
     alleq (.dense [[1]]) (.dense [[2]]) = .ok (alleqD [[1]] [[2]])) :=
  ⟨rfl, alleq_sparse_unpack (.sparse csrNeg) (.dense [[1]]) rfl [[1]] [[2]]⟩
